import Mathlib

/-!
Shallow embedding of the retrieval core of the repository (RAG utilities):
text chunking, batched embedding generation, cosine similarity and top-K
retrieval, plus the session-init entry point that composes them.

Modelling conventions:
* JS strings are modelled as `List Char`; `String.prototype.trim` is `trimStr`
  and string length is list length.
* JS numbers in the similarity code are idealised as real numbers (`ℝ`);
  `Math.sqrt` is `Real.sqrt`.
* Thrown exceptions are modelled with `Except RagError`.
* The embedding provider (`env.AI.run` followed by the `result && result.data
  && result.data[0]` shape check) is modelled as a function
  `List Char → Option Vec`: `some v` when the settled response carries the
  vector `v` in `data[0]`, `none` when the response is malformed or missing.
-/

/-- Characters treated as sentence boundaries by the chunker regex, namely
the character class of the JS regex used in chunkText. -/
def isBoundary (c : Char) : Bool := c = '.' || c = '!' || c = '?'

/-- Whitespace predicate used to model JS trim and whitespace collapsing. -/
def isWS (c : Char) : Bool := c.isWhitespace

/-- Model of JS trim: remove leading and trailing whitespace. -/
def trimStr (s : List Char) : List Char := (s.dropWhile isWS).rdropWhile isWS

/-- Scanner modelling the global JS regex match of chunkText line 21,
pattern: one or more non-boundary characters followed by one or more
boundary characters.  State: `body` is the pending run of non-boundary
characters, `terms` the pending run of boundary characters following it.
A boundary character with no preceding body cannot start a match and is
skipped; a trailing body with no boundary character is not a match. -/
def sentenceSplitAux (body terms : List Char) : List Char → List (List Char)
  | [] => if terms = [] then [] else [body ++ terms]
  | c :: cs =>
    if isBoundary c then
      if body = [] then sentenceSplitAux [] [] cs
      else sentenceSplitAux body (terms ++ [c]) cs
    else
      if terms = [] then sentenceSplitAux (body ++ [c]) [] cs
      else (body ++ terms) :: sentenceSplitAux [c] [] cs

/-- All matches of the sentence regex of chunkText line 21 on the input. -/
def sentenceSplit (text : List Char) : List (List Char) := sentenceSplitAux [] [] text

/-- Line 21 of the source: the regex matches, or the whole text as a single
element when the regex finds no match at all. -/
def sentencesOf (text : List Char) : List (List Char) :=
  match sentenceSplit text with
  | [] => [text]
  | s :: ss => s :: ss

/-- Loop body of chunkText lines 25 to 35.  State: chunks emitted so far and
the current chunk buffer. -/
def chunkStep (maxChunkSize : Nat) (st : List (List Char) × List Char)
    (sentence : List Char) : List (List Char) × List Char :=
  let t := trimStr sentence
  if st.2 ≠ [] ∧ maxChunkSize < st.2.length + t.length + 1 then
    (st.1 ++ [trimStr st.2], t)
  else
    (st.1, st.2 ++ (if st.2 ≠ [] then [' '] else []) ++ t)

/-- Fixed-width slicing of chunkText lines 45 to 47: take maxChunkSize
characters at a time and trim each slice.  The JS loop never terminates when
maxChunkSize is zero; the zero case here returns the empty list instead and
is never exercised by any claim (all claims assume a positive size). -/
def fallbackSlices : List Char → Nat → List (List Char)
  | [], _ => []
  | c :: rest, n =>
    if n = 0 then []
    else trimStr ((c :: rest).take n) :: fallbackSlices ((c :: rest).drop n) n
termination_by text _ => text.length
decreasing_by
  simp only [List.length_drop, List.length_cons]
  omega

/-- chunkText from the source, lines 19 to 51: greedy sentence packing with
a final flush, and the fixed-width fallback guarded by the emptiness check
of line 43. -/
def chunkText (text : List Char) (maxChunkSize : Nat) : List (List Char) :=
  let st := (sentencesOf text).foldl (chunkStep maxChunkSize) ([], [])
  let chunks := if trimStr st.2 ≠ [] then st.1 ++ [trimStr st.2] else st.1
  if chunks = [] ∧ trimStr text ≠ [] then fallbackSlices text maxChunkSize else chunks

/-- Embedding vectors, idealised over the reals. -/
abbrev Vec := List ℝ

/-- Chunk record from types: a text together with its embedding. -/
structure Chunk where
  text : List Char
  embedding : Vec

/-- Error conditions thrown by the source: the length guard of
cosineSimilarity line 98, the missing-embedding throw of line 81, and the
blank-text rejection of handleSessionInit lines 425 to 433. -/
inductive RagError where
  | dimensionMismatch
  | embeddingFailed
  | invalidInput
deriving DecidableEq

/-- Extraction loop of generateEmbeddings lines 77 to 83: push each settled
result's vector in order, or throw on the first malformed or missing one. -/
def extractResults : List (Option Vec) → Except RagError (List Vec)
  | [] => .ok []
  | some v :: rest => (extractResults rest).map (fun vs => v :: vs)
  | none :: _ => .error .embeddingFailed

/-- generateEmbeddings lines 60 to 87: process the texts in batches of ten;
each batch is dispatched in parallel (one provider call per text, order of
the results fixed by position, modelled by mapping the provider over the
batch) and its results are appended in order; a bad result aborts the whole
call before any later batch runs. -/
def generateEmbeddings (provider : List Char → Option Vec) :
    List (List Char) → Except RagError (List Vec)
  | [] => .ok []
  | t :: ts => do
    let vecs ← extractResults (((t :: ts).take 10).map provider)
    let rest ← generateEmbeddings provider ((t :: ts).drop 10)
    pure (vecs ++ rest)
termination_by l => l.length
decreasing_by
  simp only [List.length_drop, List.length_cons]
  omega

/-- createChunksWithEmbeddings lines 150 to 164: chunk at the default size
500, embed, and zip positionally (the source indexes embeddings by the chunk
position; an out-of-range index, which never happens on a success, is given
the empty vector). -/
def createChunksWithEmbeddings (provider : List Char → Option Vec)
    (text : List Char) : Except RagError (List Chunk) := do
  let textChunks := chunkText text 500
  let embeddings ← generateEmbeddings provider textChunks
  pure (textChunks.mapIdx (fun i t => { text := t, embedding := embeddings.getD i [] }))

/-- Input-validation and chunk-building core of handleSessionInit lines 422
to 439: reject empty or all-whitespace text with the 400 response, otherwise
build the chunk collection. -/
def handleSessionInit (provider : List Char → Option Vec)
    (text : List Char) : Except RagError (List Chunk) :=
  if trimStr text = [] then .error .invalidInput
  else createChunksWithEmbeddings provider text

/-- Value computed by cosineSimilarity lines 101 to 118 once the length
guard has passed: dot product and squared magnitudes accumulated over the
common index range, square roots taken, zero-magnitude short-circuit, else
the normalised dot product. -/
noncomputable def cosSimVal (a b : Vec) : ℝ :=
  let dot := (a.zipWith (fun x y => x * y) b).sum
  let magA := Real.sqrt ((a.map (fun x => x * x)).sum)
  let magB := Real.sqrt ((b.map (fun x => x * x)).sum)
  if magA = 0 ∨ magB = 0 then 0 else dot / (magA * magB)

/-- cosineSimilarity lines 96 to 119: the length guard of lines 97 to 99
followed by the computation. -/
noncomputable def cosineSimilarity (a b : Vec) : Except RagError ℝ :=
  if a.length ≠ b.length then .error .dimensionMismatch
  else .ok (cosSimVal a b)

/-- Scoring map of findTopK lines 131 to 134: pair every chunk with its
similarity to the query, aborting on the first dimension mismatch. -/
noncomputable def scoreChunks (q : Vec) (chunks : List Chunk) :
    Except RagError (List (Chunk × ℝ)) :=
  chunks.mapM (fun c => (cosineSimilarity q c.embedding).map (fun s => (c, s)))

/-- Sort of findTopK line 137.  The JS comparator returns the score of the
second argument minus the score of the first, and Array.prototype.sort is
stable, so the result is the unique stable descending sort by score; for a
total preorder that is exactly insertion sort with this relation. -/
noncomputable def sortByScore (l : List (Chunk × ℝ)) : List (Chunk × ℝ) :=
  l.insertionSort (fun x y => y.2 ≤ x.2)

/-- findTopK lines 129 to 141: score every chunk, sort descending by score,
return the first k chunks. -/
noncomputable def findTopK (q : Vec) (chunks : List Chunk) (k : Nat) :
    Except RagError (List Chunk) := do
  let scored ← scoreChunks q chunks
  pure (((sortByScore scored).take k).map Prod.fst)

/-- Zero vector of a given dimension, used to state the zero-magnitude
clause of the similarity contract. -/
def zeroVector (n : Nat) : Vec := List.replicate n 0

/-- Chunks of a list whose similarity to the query equals a given score,
in list order; used to state tie stability. -/
noncomputable def filterScore (q : Vec) (s : ℝ) (l : List Chunk) : List Chunk :=
  l.filter (fun c => decide (cosSimVal q c.embedding = s))

/-- Words of a string: maximal whitespace-free runs, used to state the
collapsed-whitespace content comparison of the chunker.  The accumulator is
the pending word. -/
def wordsOfAux (w : List Char) : List Char → List (List Char)
  | [] => if w = [] then [] else [w]
  | c :: cs =>
    if isWS c then
      if w = [] then wordsOfAux [] cs else w :: wordsOfAux [] cs
    else wordsOfAux (w ++ [c]) cs

/-- Words of a string, in order. -/
def wordsOf (s : List Char) : List (List Char) := wordsOfAux [] s

example : sentenceSplit "Cats are mammals. Dogs bark! Fish?".data =
    ["Cats are mammals.".data, " Dogs bark!".data, " Fish?".data] := by decide

example : sentenceSplit "no boundary here".data = [] := by decide

example : chunkText "Cats are mammals. Dogs bark loudly. Fish swim in water.".data 20 =
    ["Cats are mammals.".data, "Dogs bark loudly.".data, "Fish swim in water.".data] := by decide

example : chunkText "Hi. Yo.".data 20 = ["Hi. Yo.".data] := by decide

example : chunkText "".data 500 = [] := by decide

example : chunkText "   ".data 500 = [] := by decide

example : wordsOf "  a bc  d ".data = ["a".data, "bc".data, "d".data] := by decide

/-! Helper lemmas about trimming. -/

theorem trimStr_length_le (s : List Char) : (trimStr s).length ≤ s.length :=
  le_trans (List.rdropWhile_prefix isWS _).length_le (List.dropWhile_sublist isWS).length_le

theorem dropWhile_all_eq_nil {p : Char → Bool} {s : List Char}
    (h : ∀ c ∈ s.dropWhile p, p c = true) : s.dropWhile p = [] := by
  induction s with
  | nil => rfl
  | cons c cs ih =>
    rw [List.dropWhile_cons]
    by_cases hc : p c = true
    · simp only [hc, if_true]
      exact ih (by simpa [List.dropWhile_cons, hc] using h)
    · exfalso
      exact hc (h c (by simp [List.dropWhile_cons, hc]))

theorem trimStr_eq_nil_iff (s : List Char) :
    trimStr s = [] ↔ ∀ c ∈ s, isWS c = true := by
  constructor
  · intro h c hc
    have hu : ∀ x ∈ s.dropWhile isWS, isWS x = true :=
      (List.rdropWhile_eq_nil_iff).mp h
    have : s.dropWhile isWS = [] := dropWhile_all_eq_nil hu
    exact List.dropWhile_eq_nil_iff.mp this c hc
  · intro h
    have : s.dropWhile isWS = [] :=
      List.dropWhile_eq_nil_iff.mpr h
    simp [trimStr, this]

theorem dropWhile_trimStr (s : List Char) :
    (trimStr s).dropWhile isWS = trimStr s := by
  rcases hv : trimStr s with _ | ⟨c, v⟩
  · rfl
  · have hpre : trimStr s <+: s.dropWhile isWS := List.rdropWhile_prefix isWS _
    rw [hv] at hpre
    obtain ⟨t, ht⟩ := hpre
    have hidem : (s.dropWhile isWS).dropWhile isWS = s.dropWhile isWS :=
      List.dropWhile_idempotent _ _
    rw [← ht] at hidem
    have hc : isWS c = false := by
      by_contra hcc
      have hcc' : isWS c = true := by
        cases h : isWS c
        · exact absurd h hcc
        · rfl
      rw [List.cons_append, List.dropWhile_cons, hcc', if_pos rfl] at hidem
      have hlen := congrArg List.length hidem
      have hle : (List.dropWhile isWS (v ++ t)).length ≤ (v ++ t).length :=
        (List.dropWhile_sublist isWS).length_le
      rw [List.length_cons] at hlen
      omega
    simp [List.dropWhile_cons, hc]

theorem trimStr_idem (s : List Char) : trimStr (trimStr s) = trimStr s := by
  have h1 : (trimStr s).dropWhile isWS = trimStr s := dropWhile_trimStr s
  show ((trimStr s).dropWhile isWS).rdropWhile isWS = trimStr s
  rw [h1]
  exact List.rdropWhile_idempotent _ _

/-! Helper lemmas about words: whitespace-separated content. -/

theorem wordsOfAux_all_ws {t : List Char} (h : ∀ c ∈ t, isWS c = true) (w : List Char) :
    wordsOfAux w t = if w = [] then [] else [w] := by
  induction t generalizing w with
  | nil => rfl
  | cons c cs ih =>
    have hc : isWS c = true := h c (by simp)
    have hcs : ∀ x ∈ cs, isWS x = true := fun x hx => h x (by simp [hx])
    by_cases hw : w = []
    · subst hw
      simp [wordsOfAux, hc, ih hcs]
    · simp [wordsOfAux, hc, hw, ih hcs]

theorem wordsOfAux_sep {sep : Char} (hsep : isWS sep = true) (a : List Char) :
    ∀ (w b : List Char), wordsOfAux w (a ++ sep :: b) = wordsOfAux w a ++ wordsOfAux [] b := by
  induction a with
  | nil =>
    intro w b
    by_cases hw : w = [] <;> simp [wordsOfAux, hsep, hw]
  | cons c cs ih =>
    intro w b
    by_cases hc : isWS c = true
    · by_cases hw : w = [] <;> simp [wordsOfAux, hc, hw, ih]
    · have hc' : isWS c = false := by
        cases h : isWS c
        · rfl
        · exact absurd h hc
      simp [wordsOfAux, hc', ih]

theorem wordsOfAux_trailing_ws {t : List Char} (h : ∀ c ∈ t, isWS c = true) (s : List Char) :
    ∀ w, wordsOfAux w (s ++ t) = wordsOfAux w s := by
  induction s with
  | nil =>
    intro w
    rw [List.nil_append, wordsOfAux_all_ws h]
    by_cases hw : w = [] <;> simp [wordsOfAux, hw]
  | cons c cs ih =>
    intro w
    by_cases hc : isWS c = true
    · by_cases hw : w = [] <;> simp [wordsOfAux, hc, hw, ih]
    · have hc' : isWS c = false := by
        cases h' : isWS c
        · rfl
        · exact absurd h' hc
      simp [wordsOfAux, hc', ih]

theorem wordsOfAux_leading_ws (s : List Char) :
    wordsOfAux [] (s.dropWhile isWS) = wordsOfAux [] s := by
  induction s with
  | nil => rfl
  | cons c cs ih =>
    by_cases hc : isWS c = true
    · simp [List.dropWhile_cons, hc, wordsOfAux, ih]
    · have hc' : isWS c = false := by
        cases h' : isWS c
        · rfl
        · exact absurd h' hc
      simp [List.dropWhile_cons, hc']

theorem rdrop_append_rtake (p : Char → Bool) (l : List Char) :
    l.rdropWhile p ++ l.rtakeWhile p = l := by
  rw [List.rdropWhile, List.rtakeWhile, ← List.reverse_append,
    List.takeWhile_append_dropWhile, List.reverse_reverse]

theorem wordsOf_trimStr (s : List Char) : wordsOf (trimStr s) = wordsOf s := by
  show wordsOfAux [] (trimStr s) = wordsOfAux [] s
  have h1 : wordsOfAux [] s = wordsOfAux [] (s.dropWhile isWS) :=
    (wordsOfAux_leading_ws s).symm
  have h2 : ∀ c ∈ (s.dropWhile isWS).rtakeWhile isWS, isWS c = true :=
    fun c hc => List.mem_rtakeWhile_imp hc
  calc wordsOfAux [] (trimStr s)
      = wordsOfAux [] (trimStr s ++ (s.dropWhile isWS).rtakeWhile isWS) :=
        (wordsOfAux_trailing_ws h2 _ _).symm
    _ = wordsOfAux [] (s.dropWhile isWS) := by rw [trimStr, rdrop_append_rtake]
    _ = wordsOfAux [] s := wordsOfAux_leading_ws s

theorem wordsOfAux_ne_nil {w : List Char} (hw : w ≠ []) (s : List Char) :
    wordsOfAux w s ≠ [] := by
  induction s generalizing w with
  | nil => simp [wordsOfAux, hw]
  | cons c cs ih =>
    by_cases hc : isWS c = true
    · simp [wordsOfAux, hc, hw]
    · have hc' : isWS c = false := by
        cases h' : isWS c
        · rfl
        · exact absurd h' hc
      simp only [wordsOfAux, hc', Bool.false_eq_true, if_false]
      exact ih (by simp)

/-! Helper lemmas for the Except monad. -/

@[simp] theorem ok_bind {α β : Type} (a : α) (f : α → Except RagError β) :
    (Except.ok a >>= f) = f a := rfl

@[simp] theorem error_bind {α β : Type} (e : RagError) (f : α → Except RagError β) :
    ((Except.error e : Except RagError α) >>= f) = .error e := rfl

@[simp] theorem map_ok {α β : Type} (a : α) (f : α → β) :
    (Except.ok a : Except RagError α).map f = .ok (f a) := rfl

@[simp] theorem map_error {α β : Type} (e : RagError) (f : α → β) :
    (Except.error e : Except RagError α).map f = .error e := rfl

theorem wordsOf_eq_nil_iff (s : List Char) :
    wordsOf s = [] ↔ ∀ c ∈ s, isWS c = true := by
  constructor
  · intro h
    induction s with
    | nil => intro c hc; cases hc
    | cons c cs ih =>
      by_cases hc : isWS c = true
      · intro x hx
        rcases List.mem_cons.mp hx with rfl | hx'
        · exact hc
        · refine ih ?_ x hx'
          simpa [wordsOf, wordsOfAux, hc] using h
      · exfalso
        have hc' : isWS c = false := by
          cases h' : isWS c
          · rfl
          · exact absurd h' hc
        have : wordsOfAux [c] cs ≠ [] := wordsOfAux_ne_nil (by simp) cs
        exact this (by simpa [wordsOf, wordsOfAux, hc'] using h)
  · intro h
    show wordsOfAux [] s = []
    rw [wordsOfAux_all_ws h]
    simp

/-! Helper lemmas about the embedding pipeline. -/

theorem extractResults_map_some (provider : List Char → Option Vec) (f : List Char → Vec) :
    ∀ l : List (List Char), (∀ t ∈ l, provider t = some (f t)) →
      extractResults (l.map provider) = .ok (l.map f) := by
  intro l
  induction l with
  | nil => intro _; rfl
  | cons t ts ih =>
    intro h
    have ht : provider t = some (f t) := h t (by simp)
    rw [List.map_cons, ht]
    show (extractResults (ts.map provider)).map (fun vs => f t :: vs) = _
    rw [ih (fun x hx => h x (by simp [hx]))]
    rfl

theorem extractResults_none {l : List (Option Vec)} (h : none ∈ l) :
    extractResults l = .error .embeddingFailed := by
  induction l with
  | nil => cases h
  | cons o os ih =>
    cases o with
    | none => rfl
    | some v =>
      have : none ∈ os := by
        rcases List.mem_cons.mp h with h' | h'
        · cases h'
        · exact h'
      show (extractResults os).map _ = _
      rw [ih this]
      rfl

theorem extractResults_ok_or (l : List (Option Vec)) :
    (∃ vs, extractResults l = .ok vs) ∨ extractResults l = .error .embeddingFailed := by
  induction l with
  | nil => exact Or.inl ⟨[], rfl⟩
  | cons o os ih =>
    cases o with
    | none => exact Or.inr rfl
    | some v =>
      rcases ih with ⟨vs, hvs⟩ | herr
      · exact Or.inl ⟨v :: vs, by show (extractResults os).map _ = _; rw [hvs]; rfl⟩
      · exact Or.inr (by show (extractResults os).map _ = _; rw [herr]; rfl)

theorem generateEmbeddings_all_some (provider : List Char → Option Vec) (f : List Char → Vec) :
    ∀ (n : Nat) (ts : List (List Char)), ts.length ≤ n →
      (∀ t ∈ ts, provider t = some (f t)) →
      generateEmbeddings provider ts = .ok (ts.map f) := by
  intro n
  induction n with
  | zero =>
    intro ts hlen _
    have : ts = [] := List.eq_nil_of_length_eq_zero (Nat.le_zero.mp hlen)
    subst this
    simp [generateEmbeddings]
  | succ n ih =>
    intro ts hlen hall
    cases ts with
    | nil => simp [generateEmbeddings]
    | cons t ts' =>
      have htake : extractResults (((t :: ts').take 10).map provider) =
          .ok (((t :: ts').take 10).map f) :=
        extractResults_map_some provider f _
          (fun x hx => hall x ((List.take_sublist 10 (t :: ts')).subset hx))
      have hdroplen : ((t :: ts').drop 10).length ≤ n := by
        simp only [List.length_drop, List.length_cons]
        simp only [List.length_cons] at hlen
        omega
      have hdrop : generateEmbeddings provider ((t :: ts').drop 10) =
          .ok (((t :: ts').drop 10).map f) :=
        ih _ hdroplen (fun x hx => hall x ((List.drop_sublist 10 (t :: ts')).subset hx))
      simp only [generateEmbeddings, htake, hdrop, ok_bind]
      show Except.ok _ = _
      rw [← List.map_append, List.take_append_drop]

theorem generateEmbeddings_none (provider : List Char → Option Vec) :
    ∀ (n : Nat) (ts : List (List Char)), ts.length ≤ n →
      (∃ t ∈ ts, provider t = none) →
      generateEmbeddings provider ts = .error .embeddingFailed := by
  intro n
  induction n with
  | zero =>
    intro ts hlen h
    have : ts = [] := List.eq_nil_of_length_eq_zero (Nat.le_zero.mp hlen)
    subst this
    obtain ⟨t, ht, _⟩ := h
    cases ht
  | succ n ih =>
    intro ts hlen h
    cases ts with
    | nil => obtain ⟨t, ht, _⟩ := h; cases ht
    | cons t ts' =>
      obtain ⟨t0, ht0mem, ht0⟩ := h
      have hsplit : t0 ∈ (t :: ts').take 10 ∨ t0 ∈ (t :: ts').drop 10 := by
        rw [← List.mem_append, List.take_append_drop]
        exact ht0mem
      rcases hsplit with hmem | hmem
      · have herr : extractResults (((t :: ts').take 10).map provider) =
            .error .embeddingFailed :=
          extractResults_none (by
            rw [← ht0]
            exact List.mem_map_of_mem provider hmem)
        simp only [generateEmbeddings, herr, error_bind]
      · rcases extractResults_ok_or (((t :: ts').take 10).map provider) with ⟨vs, hok⟩ | herr
        · have hdroplen : ((t :: ts').drop 10).length ≤ n := by
            simp only [List.length_drop, List.length_cons]
            simp only [List.length_cons] at hlen
            omega
          have hdrop : generateEmbeddings provider ((t :: ts').drop 10) =
              .error .embeddingFailed := ih _ hdroplen ⟨t0, hmem, ht0⟩
          simp only [generateEmbeddings, hok, hdrop, ok_bind, error_bind]
        · simp only [generateEmbeddings, herr, error_bind]

/-! Helper lemmas about similarity guarding. -/

theorem cosineSimilarity_eq_ok {a b : Vec} (h : a.length = b.length) :
    cosineSimilarity a b = .ok (cosSimVal a b) := by
  simp [cosineSimilarity, h]

theorem cosineSimilarity_eq_error {a b : Vec} (h : a.length ≠ b.length) :
    cosineSimilarity a b = .error .dimensionMismatch := by
  simp [cosineSimilarity, h]

theorem scoreChunks_error {q : Vec} {chunks : List Chunk}
    (h : ∃ c ∈ chunks, c.embedding.length ≠ q.length) :
    scoreChunks q chunks = .error .dimensionMismatch := by
  induction chunks with
  | nil => obtain ⟨c, hc, _⟩ := h; cases hc
  | cons c cs ih =>
    simp only [scoreChunks] at ih ⊢
    rw [List.mapM_cons]
    by_cases hc : q.length = c.embedding.length
    · obtain ⟨c0, hc0mem, hc0⟩ := h
      have hc0' : c0 ∈ cs := by
        rcases List.mem_cons.mp hc0mem with rfl | h'
        · exact absurd hc.symm hc0
        · exact h'
      rw [cosineSimilarity_eq_ok hc]
      simp only [map_ok, ok_bind]
      rw [ih ⟨c0, hc0', hc0⟩]
      rfl
    · rw [cosineSimilarity_eq_error hc]
      rfl

/-! Helper lemmas about the chunker on boundary-free input. -/

theorem ws_not_boundary {c : Char} (h : isWS c = true) : isBoundary c = false := by
  cases hb : isBoundary c
  · rfl
  · exfalso
    have hcs : c = '.' ∨ c = '!' ∨ c = '?' := by
      simpa [isBoundary, or_assoc] using hb
    rcases hcs with rfl | rfl | rfl <;> exact absurd h (by decide)

theorem sentenceSplitAux_no_boundary {s : List Char}
    (h : ∀ c ∈ s, isBoundary c = false) : ∀ body, sentenceSplitAux body [] s = [] := by
  induction s with
  | nil => intro body; rfl
  | cons c cs ih =>
    intro body
    have hc : isBoundary c = false := h c (by simp)
    simp only [sentenceSplitAux, hc, Bool.false_eq_true, if_false, if_pos rfl]
    exact ih (fun x hx => h x (by simp [hx])) _

theorem chunkText_no_match {text : List Char} (n : Nat)
    (h : sentenceSplit text = []) :
    chunkText text n = if trimStr text = [] then [] else [trimStr text] := by
  simp only [chunkText, sentencesOf, h, List.foldl_cons, List.foldl_nil, chunkStep]
  simp only [ne_eq, not_true_eq_false, false_and, if_false, List.nil_append]
  rw [trimStr_idem]
  by_cases ht : trimStr text = []
  · simp [ht]
  · simp [ht]

/-- C2: on inputs where the embedding provider yields a vector for every
text, generateEmbeddings returns exactly one vector per input text, in
input order: the output is the input list mapped through the provider's
embedding, regardless of the internal grouping into batches of ten. -/
theorem claim_C2 (provider : List Char → Option Vec) (f : List Char → Vec)
    (texts : List (List Char)) (h : ∀ t ∈ texts, provider t = some (f t)) :
    generateEmbeddings provider texts = .ok (texts.map f) :=
  generateEmbeddings_all_some provider f texts.length texts le_rfl h

/-- Witness for C2 at a concrete input of twelve texts, which crosses a
batch boundary. -/
theorem claim_C2_witness :
    generateEmbeddings (fun t => some [(t.length : ℝ)]) (List.replicate 12 ['a'])
      = .ok ((List.replicate 12 ['a']).map (fun t => [(t.length : ℝ)])) :=
  claim_C2 _ _ _ (fun _ _ => rfl)

/-- C3: if the provider result for any one chunk of the text is malformed
or missing, createChunksWithEmbeddings fails with the embedding error and
returns no chunk list at all. -/
theorem claim_C3 (provider : List Char → Option Vec) (text : List Char)
    (h : ∃ t ∈ chunkText text 500, provider t = none) :
    createChunksWithEmbeddings provider text = .error .embeddingFailed := by
  have hg : generateEmbeddings provider (chunkText text 500) = .error .embeddingFailed :=
    generateEmbeddings_none provider (chunkText text 500).length _ le_rfl h
  simp only [createChunksWithEmbeddings, hg, error_bind]

/-- Witness for C3: a provider that never returns a vector makes the call
on a one-chunk text fail. -/
theorem claim_C3_witness :
    createChunksWithEmbeddings (fun _ => none) ['H', 'i', '.'] = .error .embeddingFailed :=
  claim_C3 _ _ ⟨['H', 'i', '.'], by decide, rfl⟩

/-- C10: findTopK scores every candidate before truncating, so one chunk
of mismatched dimensionality fails the whole call for every k, even k
equal to zero. -/
theorem claim_C10 (q : Vec) (chunks : List Chunk) (k : Nat)
    (h : ∃ c ∈ chunks, c.embedding.length ≠ q.length) :
    findTopK q chunks k = .error .dimensionMismatch := by
  have hs : scoreChunks q chunks = .error .dimensionMismatch := scoreChunks_error h
  simp only [findTopK, hs, error_bind]

/-- Witness for C10 at a one-dimensional query, a single two-dimensional
chunk and k equal to zero. -/
theorem claim_C10_witness :
    findTopK [(1 : ℝ)] [{ text := ['x'], embedding := [(1 : ℝ), 2] }] 0
      = .error .dimensionMismatch :=
  claim_C10 _ _ _ ⟨{ text := ['x'], embedding := [(1 : ℝ), 2] }, by simp, by simp⟩

/-- C8 as stated is false: createChunksWithEmbeddings performs no blank
check of its own; on the empty text it chunks to nothing, embeds nothing
and returns the empty chunk collection instead of an InvalidInput error. -/
theorem claim_C8_counterexample :
    createChunksWithEmbeddings (fun _ => none) [] = .ok [] := by
  have hc : chunkText [] 500 = [] := by decide
  simp only [createChunksWithEmbeddings, hc, generateEmbeddings, ok_bind]
  rfl

/-- C8 amended: the InvalidInput rejection of blank source text lives in
the request handler handleSessionInit, which refuses blank text before the
pipeline runs; createChunksWithEmbeddings itself returns the empty chunk
collection on blank text rather than failing. -/
theorem claim_C8_amended (provider : List Char → Option Vec) (text : List Char)
    (h : trimStr text = []) :
    handleSessionInit provider text = .error .invalidInput ∧
    createChunksWithEmbeddings provider text = .ok [] := by
  constructor
  · simp [handleSessionInit, h]
  · have hws : ∀ c ∈ text, isWS c = true := (trimStr_eq_nil_iff text).mp h
    have hnb : ∀ c ∈ text, isBoundary c = false := fun c hc => ws_not_boundary (hws c hc)
    have hsplit : sentenceSplit text = [] := sentenceSplitAux_no_boundary hnb []
    have hchunk : chunkText text 500 = [] := by
      rw [chunkText_no_match 500 hsplit, if_pos h]
    simp only [createChunksWithEmbeddings, hchunk, generateEmbeddings, ok_bind]
    rfl

/-- Witness for the amended C8 at a one-space text. -/
theorem claim_C8_amended_witness :
    handleSessionInit (fun _ => none) [' '] = .error .invalidInput ∧
    createChunksWithEmbeddings (fun _ => none) [' '] = .ok [] :=
  claim_C8_amended _ _ (by decide)

/-- C9 as stated is false: on non-blank text with no boundary marker the
regex of line 21 produces no match, so the source substitutes the whole
text as the single sentence and the packing loop returns it as one chunk;
the fixed-width slicing branch of lines 43 to 48 is unreachable.  At input
abcd with maxChunkSize 2 the code returns one four-character chunk, not
the two trimmed two-character slices the claim predicts. -/
theorem claim_C9_counterexample :
    trimStr ['a', 'b', 'c', 'd'] ≠ [] ∧
    (∀ c ∈ (['a', 'b', 'c', 'd'] : List Char), isBoundary c = false) ∧
    chunkText ['a', 'b', 'c', 'd'] 2 = [['a', 'b', 'c', 'd']] ∧
    chunkText ['a', 'b', 'c', 'd'] 2 ≠ [trimStr ['a', 'b'], trimStr ['c', 'd']] := by
  decide

/-- C9 amended: for non-blank text containing no boundary marker,
chunkText returns a single chunk, the whole trimmed text, for every
maxChunkSize; the fixed-width slicing fallback never runs. -/
theorem claim_C9_amended (text : List Char) (n : Nat)
    (hb : trimStr text ≠ []) (hnb : ∀ c ∈ text, isBoundary c = false) :
    chunkText text n = [trimStr text] := by
  have hsplit : sentenceSplit text = [] := sentenceSplitAux_no_boundary hnb []
  rw [chunkText_no_match n hsplit, if_neg hb]

/-- Witness for the amended C9 at text ab with maxChunkSize 1. -/
theorem claim_C9_amended_witness : chunkText ['a', 'b'] 1 = [trimStr ['a', 'b']] :=
  claim_C9_amended ['a', 'b'] 1 (by decide) (by decide)

/-! Invariants of the greedy packing loop of chunkText. -/

theorem chunkStep_cases (n : Nat) (st : List (List Char) × List Char) (s : List Char) :
    (st.2 ≠ [] ∧ n < st.2.length + (trimStr s).length + 1 ∧
      chunkStep n st s = (st.1 ++ [trimStr st.2], trimStr s)) ∨
    (¬(st.2 ≠ [] ∧ n < st.2.length + (trimStr s).length + 1) ∧
      chunkStep n st s = (st.1, st.2 ++ (if st.2 ≠ [] then [' '] else []) ++ trimStr s)) := by
  by_cases h : st.2 ≠ [] ∧ n < st.2.length + (trimStr s).length + 1
  · exact Or.inl ⟨h.1, h.2, by simp only [chunkStep, if_pos h]⟩
  · exact Or.inr ⟨h, by simp only [chunkStep, if_neg h]⟩

theorem trimStr_of_trimmed {cur : List Char} {s : List Char} (h : cur = trimStr s) :
    trimStr cur = cur := by
  rw [h, trimStr_idem]

theorem chunkStep_fold_bound (n : Nat) (S : List (List Char)) :
    ∀ (l : List (List Char)), (∀ s ∈ l, s ∈ S) →
    ∀ (cks : List (List Char)) (cur : List Char),
      (∀ ck ∈ cks, ck.length ≤ n ∨ ∃ s ∈ S, ck = trimStr s ∧ n < ck.length) →
      (cur.length ≤ n ∨ ∃ s ∈ S, cur = trimStr s ∧ n < cur.length) →
      (∀ ck ∈ (l.foldl (chunkStep n) (cks, cur)).1,
          ck.length ≤ n ∨ ∃ s ∈ S, ck = trimStr s ∧ n < ck.length) ∧
      ((l.foldl (chunkStep n) (cks, cur)).2.length ≤ n ∨
          ∃ s ∈ S, (l.foldl (chunkStep n) (cks, cur)).2 = trimStr s ∧
            n < (l.foldl (chunkStep n) (cks, cur)).2.length) := by
  intro l
  induction l with
  | nil =>
    intro _ cks cur hcks hcur
    exact ⟨hcks, hcur⟩
  | cons s l ih =>
    intro hmem cks cur hcks hcur
    have hsS : s ∈ S := hmem s (by simp)
    have hmem' : ∀ x ∈ l, x ∈ S := fun x hx => hmem x (by simp [hx])
    rw [List.foldl_cons]
    have htrim_ok : ∀ m : Nat, (trimStr s).length ≤ m ∨
        ∃ s0 ∈ S, trimStr s = trimStr s0 ∧ m < (trimStr s).length := by
      intro m
      by_cases hl : m < (trimStr s).length
      · exact Or.inr ⟨s, hsS, rfl, hl⟩
      · exact Or.inl (Nat.le_of_not_lt hl)
    rcases chunkStep_cases n (cks, cur) s with ⟨hne, _, heq⟩ | ⟨hcond, heq⟩
    · rw [heq]
      refine ih hmem' _ _ ?_ (htrim_ok n)
      intro ck hck
      rcases List.mem_append.mp hck with hck' | hck'
      · exact hcks ck hck'
      · have hckeq : ck = trimStr cur := by simpa using hck'
        subst hckeq
        rcases hcur with hlen | ⟨s0, hs0, hceq, hlt⟩
        · exact Or.inl (le_trans (trimStr_length_le cur) hlen)
        · have hfix : trimStr cur = cur := trimStr_of_trimmed hceq
          rw [hfix]
          exact Or.inr ⟨s0, hs0, hceq, hlt⟩
    · rw [heq]
      refine ih hmem' _ _ hcks ?_
      by_cases hc : cur = []
      · subst hc
        simpa using htrim_ok n
      · have hle : cur.length + (trimStr s).length + 1 ≤ n := by
          rcases Nat.lt_or_ge n (cur.length + (trimStr s).length + 1) with hlt | hge
          · exact absurd ⟨hc, hlt⟩ hcond
          · exact hge
        refine Or.inl ?_
        simp only [if_pos hc, List.length_append, List.length_cons]
        simp only [List.length_append] at hle ⊢
        simp [List.length_cons]
        omega

theorem fallbackSlices_length_le_aux :
    ∀ (m : Nat) (text : List Char), text.length ≤ m →
      ∀ (n : Nat), ∀ ck ∈ fallbackSlices text n, ck.length ≤ n := by
  intro m
  induction m with
  | zero =>
    intro text hl n ck hck
    have : text = [] := List.eq_nil_of_length_eq_zero (Nat.le_zero.mp hl)
    subst this
    simp only [fallbackSlices] at hck
    cases hck
  | succ m ih =>
    intro text hl n ck hck
    cases text with
    | nil =>
      simp only [fallbackSlices] at hck
      cases hck
    | cons c rest =>
      simp only [fallbackSlices] at hck
      by_cases hn : n = 0
      · rw [if_pos hn] at hck
        cases hck
      · rw [if_neg hn] at hck
        rcases List.mem_cons.mp hck with rfl | hck'
        · calc (trimStr ((c :: rest).take n)).length
              ≤ ((c :: rest).take n).length := trimStr_length_le _
            _ ≤ n := by rw [List.length_take]; exact min_le_left _ _
        · refine ih ((c :: rest).drop n) ?_ n ck hck'
          simp only [List.length_drop, List.length_cons]
          simp only [List.length_cons] at hl
          omega

theorem fallbackSlices_length_le (text : List Char) (n : Nat) :
    ∀ ck ∈ fallbackSlices text n, ck.length ≤ n :=
  fallbackSlices_length_le_aux text.length text le_rfl n

/-- C5 as stated is false: on text with no boundary marker at all the
packing loop emits the whole text as one chunk, which can exceed
maxChunkSize although the input contains no sentence (no maximal run of
characters ending in a boundary marker), so the over-long chunk is not a
single over-long sentence. -/
theorem claim_C5_counterexample :
    trimStr ['a', 'b', 'c', 'd', 'e'] ≠ [] ∧
    chunkText ['a', 'b', 'c', 'd', 'e'] 2 = [['a', 'b', 'c', 'd', 'e']] ∧
    2 < (['a', 'b', 'c', 'd', 'e'] : List Char).length ∧
    sentenceSplit ['a', 'b', 'c', 'd', 'e'] = [] := by
  decide

/-- C5 amended: every chunk returned by chunkText has length at most
maxChunkSize, except that a chunk may exceed it only when it is the trim of
a single segment delivered by the sentence pass of line 21 (a regex
sentence, or the whole text when the regex finds no match) whose trimmed
form alone exceeds maxChunkSize; such a segment is kept whole. -/
theorem claim_C5_amended (text : List Char) (n : Nat) :
    ∀ ck ∈ chunkText text n,
      ck.length ≤ n ∨ ∃ s ∈ sentencesOf text, ck = trimStr s ∧ n < ck.length := by
  intro ck hck
  simp only [chunkText] at hck
  set st := (sentencesOf text).foldl (chunkStep n) ([], []) with hst
  have hfold := chunkStep_fold_bound n (sentencesOf text) (sentencesOf text)
    (fun _ hs => hs) [] []
    (by intro ck hck'; cases hck') (Or.inl (Nat.zero_le n))
  rw [← hst] at hfold
  by_cases hfb : (if trimStr st.2 ≠ [] then st.1 ++ [trimStr st.2] else st.1) = [] ∧
      trimStr text ≠ []
  · rw [if_pos hfb] at hck
    exact Or.inl (fallbackSlices_length_le text n ck hck)
  · rw [if_neg hfb] at hck
    by_cases hcur : trimStr st.2 ≠ []
    · rw [if_pos hcur] at hck
      rcases List.mem_append.mp hck with hck' | hck'
      · exact hfold.1 ck hck'
      · have hckeq : ck = trimStr st.2 := by simpa using hck'
        subst hckeq
        rcases hfold.2 with hlen | ⟨s0, hs0, hceq, hlt⟩
        · exact Or.inl (le_trans (trimStr_length_le st.2) hlen)
        · have hfix : trimStr st.2 = st.2 := trimStr_of_trimmed hceq
          rw [hfix]
          exact Or.inr ⟨s0, hs0, hceq, hlt⟩
    · rw [if_neg hcur] at hck
      exact hfold.1 ck hck

/-- Witness for the amended C5: the single chunk of a short one-sentence
text is within the size bound. -/
theorem claim_C5_amended_witness :
    (['H', 'i', '.'] : List Char).length ≤ 10 ∨
      ∃ s ∈ sentencesOf ['H', 'i', '.'],
        (['H', 'i', '.'] : List Char) = trimStr s ∧ 10 < (['H', 'i', '.'] : List Char).length :=
  claim_C5_amended ['H', 'i', '.'] 10 ['H', 'i', '.'] (by decide)

/-! Word-content preservation of the packing loop, for C4. -/

theorem wordsOf_nil : wordsOf ([] : List Char) = [] := rfl

theorem chunkStep_fold_words (n : Nat) :
    ∀ (l cks : List (List Char)) (cur : List Char),
      ((l.foldl (chunkStep n) (cks, cur)).1.flatMap wordsOf) ++
        wordsOf (l.foldl (chunkStep n) (cks, cur)).2 =
      (cks.flatMap wordsOf) ++ wordsOf cur ++ (l.flatMap wordsOf) := by
  intro l
  induction l with
  | nil =>
    intro cks cur
    simp
  | cons s l ih =>
    intro cks cur
    rw [List.foldl_cons, List.flatMap_cons]
    rcases chunkStep_cases n (cks, cur) s with ⟨hne, _, heq⟩ | ⟨hcond, heq⟩
    · rw [heq, ih]
      simp only [List.flatMap_append, List.flatMap_cons, List.flatMap_nil]
      rw [wordsOf_trimStr, wordsOf_trimStr]
      simp [List.append_assoc]
    · rw [heq, ih]
      by_cases hc : cur = []
      · subst hc
        simp only [ne_eq, not_true_eq_false, if_false, List.nil_append, wordsOf_nil]
        rw [wordsOf_trimStr]
        simp
      · simp only [if_pos hc]
        have hsep : wordsOf (cur ++ [' '] ++ trimStr s) = wordsOf cur ++ wordsOf (trimStr s) := by
          rw [List.append_assoc, List.singleton_append]
          exact wordsOfAux_sep (by decide) cur [] (trimStr s)
        rw [hsep, wordsOf_trimStr]
        simp [List.append_assoc]

theorem sentenceSplitAux_boundary_mem :
    ∀ (input body terms : List Char), (∀ c ∈ terms, isBoundary c = true) →
      ∀ s ∈ sentenceSplitAux body terms input, ∃ c ∈ s, isBoundary c = true := by
  intro input
  induction input with
  | nil =>
    intro body terms hterms s hs
    simp only [sentenceSplitAux] at hs
    by_cases ht : terms = []
    · rw [if_pos ht] at hs
      cases hs
    · rw [if_neg ht] at hs
      have hseq : s = body ++ terms := by simpa using hs
      obtain ⟨c, hc⟩ := List.exists_mem_of_ne_nil terms ht
      exact ⟨c, by simp [hseq, hc], hterms c hc⟩
  | cons c cs ih =>
    intro body terms hterms s hs
    simp only [sentenceSplitAux] at hs
    by_cases hb : isBoundary c = true
    · rw [if_pos hb] at hs
      by_cases hbody : body = []
      · rw [if_pos hbody] at hs
        exact ih [] [] (by intro x hx; cases hx) s hs
      · rw [if_neg hbody] at hs
        refine ih body (terms ++ [c]) ?_ s hs
        intro x hx
        rcases List.mem_append.mp hx with hx' | hx'
        · exact hterms x hx'
        · have : x = c := by simpa using hx'
          subst this
          exact hb
    · rw [if_neg hb] at hs
      by_cases ht : terms = []
      · rw [if_pos ht] at hs
        exact ih (body ++ [c]) [] (by intro x hx; cases hx) s hs
      · rw [if_neg ht] at hs
        rcases List.mem_cons.mp hs with rfl | hs'
        · obtain ⟨c0, hc0⟩ := List.exists_mem_of_ne_nil terms ht
          exact ⟨c0, by simp [hc0], hterms c0 hc0⟩
        · exact ih [c] [] (by intro x hx; cases hx) s hs'

theorem sentenceSplit_boundary_mem {text : List Char} :
    ∀ s ∈ sentenceSplit text, ∃ c ∈ s, isBoundary c = true :=
  sentenceSplitAux_boundary_mem text [] [] (by intro x hx; cases hx)

/-- C4: the chunks returned by chunkText carry exactly the sentence content
of the input, word for word and in order: flattening the words of the
returned chunks gives the same list as flattening the words of the segments
the sentence pass of line 21 extracts from the input (its regex sentences,
or the whole text when no boundary marker occurs).  In particular no
sentence content is lost and none is duplicated, for every maxChunkSize. -/
theorem claim_C4 (text : List Char) (n : Nat) :
    (chunkText text n).flatMap wordsOf = (sentencesOf text).flatMap wordsOf := by
  simp only [chunkText]
  set st := (sentencesOf text).foldl (chunkStep n) ([], []) with hst
  have hfold := chunkStep_fold_words n (sentencesOf text) [] []
  rw [← hst] at hfold
  simp only [List.flatMap_nil, wordsOf_nil, List.nil_append] at hfold
  have hchunks : (if trimStr st.2 ≠ [] then st.1 ++ [trimStr st.2] else st.1).flatMap wordsOf
      = (sentencesOf text).flatMap wordsOf := by
    by_cases hcur : trimStr st.2 ≠ []
    · rw [if_pos hcur, List.flatMap_append]
      simpa [wordsOf_trimStr] using hfold
    · rw [if_neg hcur]
      have hcur' : trimStr st.2 = [] := by
        by_contra hcc
        exact hcur hcc
      have hws : wordsOf st.2 = [] :=
        (wordsOf_eq_nil_iff st.2).mpr ((trimStr_eq_nil_iff st.2).mp hcur')
      rw [hws, List.append_nil] at hfold
      exact hfold
  by_cases hfb : (if trimStr st.2 ≠ [] then st.1 ++ [trimStr st.2] else st.1) = [] ∧
      trimStr text ≠ []
  · exfalso
    rw [hfb.1, List.flatMap_nil] at hchunks
    rcases hsplit : sentenceSplit text with _ | ⟨s, ss⟩
    · have hsent : sentencesOf text = [text] := by
        simp [sentencesOf, hsplit]
      rw [hsent] at hchunks
      simp only [List.flatMap_cons, List.flatMap_nil, List.append_nil] at hchunks
      have : ∀ c ∈ text, isWS c = true := (wordsOf_eq_nil_iff text).mp hchunks.symm
      exact hfb.2 ((trimStr_eq_nil_iff text).mpr this)
    · have hsent : sentencesOf text = s :: ss := by
        simp [sentencesOf, hsplit]
      rw [hsent] at hchunks
      simp only [List.flatMap_cons] at hchunks
      have hsmem : s ∈ sentenceSplit text := by rw [hsplit]; simp
      obtain ⟨c, hcs, hcb⟩ := sentenceSplit_boundary_mem s hsmem
      have hcw : isWS c = false := by
        cases h : isWS c
        · rfl
        · rw [ws_not_boundary h] at hcb
          cases hcb
      have hwne : wordsOf s ≠ [] := by
        intro hweq
        have := (wordsOf_eq_nil_iff s).mp hweq c hcs
        rw [this] at hcw
        cases hcw
      rcases hw : wordsOf s with _ | ⟨w, ws⟩
      · exact hwne hw
      · rw [hw] at hchunks
        cases hchunks
  · rw [if_neg hfb]
    exact hchunks

/-! Real-arithmetic facts about the similarity value, for C6 and C7. -/

theorem sumsq_nonneg (a : Vec) : 0 ≤ (a.map (fun x => x * x)).sum := by
  refine List.sum_nonneg ?_
  intro x hx
  obtain ⟨y, _, rfl⟩ := List.mem_map.mp hx
  exact mul_self_nonneg y

theorem list_cauchy_schwarz :
    ∀ (a b : Vec), ((a.zipWith (fun x y => x * y) b).sum) ^ 2 ≤
      ((a.map fun x => x * x).sum) * ((b.map fun x => x * x).sum) := by
  intro a
  induction a with
  | nil =>
    intro b
    simp
  | cons x a ih =>
    intro b
    cases b with
    | nil =>
      simp
    | cons y b =>
      simp only [List.zipWith_cons_cons, List.map_cons, List.sum_cons]
      have hA : 0 ≤ (a.map fun x => x * x).sum := sumsq_nonneg a
      have hB : 0 ≤ (b.map fun x => x * x).sum := sumsq_nonneg b
      have hD := ih b
      set D := ((a.zipWith (fun x y => x * y) b).sum) with hDdef
      set A := ((a.map fun x => x * x).sum) with hAdef
      set B := ((b.map fun x => x * x).sum) with hBdef
      rcases eq_or_lt_of_le hB with hB0 | hBpos
      · have hD0 : D = 0 := by nlinarith [sq_nonneg D]
        rw [← hB0, hD0]
        nlinarith [mul_nonneg hA (sq_nonneg y), sq_nonneg (x * y)]
      · have key : B * ((x * x + A) * (y * y + B) - (x * y + D) ^ 2)
            = (x * B - y * D) ^ 2 + (y * y + B) * (A * B - D ^ 2) := by ring
        have h1 : (0 : ℝ) ≤ y * y + B := by nlinarith [sq_nonneg y]
        have h2 : (0 : ℝ) ≤ A * B - D ^ 2 := by nlinarith
        nlinarith [sq_nonneg (x * B - y * D), mul_nonneg h1 h2, key, hBpos]

theorem cosSimVal_bounds (a b : Vec) : -1 ≤ cosSimVal a b ∧ cosSimVal a b ≤ 1 := by
  simp only [cosSimVal]
  set D := ((a.zipWith (fun x y => x * y) b).sum) with hDdef
  set SA := ((a.map fun x => x * x).sum) with hSAdef
  set SB := ((b.map fun x => x * x).sum) with hSBdef
  by_cases hz : Real.sqrt SA = 0 ∨ Real.sqrt SB = 0
  · rw [if_pos hz]
    norm_num
  · rw [if_neg hz]
    push_neg at hz
    have hSA : 0 ≤ SA := sumsq_nonneg a
    have hSB : 0 ≤ SB := sumsq_nonneg b
    have hposA : 0 < Real.sqrt SA := (Real.sqrt_nonneg SA).lt_of_ne (Ne.symm hz.1)
    have hposB : 0 < Real.sqrt SB := (Real.sqrt_nonneg SB).lt_of_ne (Ne.symm hz.2)
    have hcs : D ^ 2 ≤ SA * SB := list_cauchy_schwarz a b
    have habs : |D| ≤ Real.sqrt SA * Real.sqrt SB := by
      rw [← Real.sqrt_sq_eq_abs, ← Real.sqrt_mul hSA]
      exact Real.sqrt_le_sqrt hcs
    have hpos : 0 < Real.sqrt SA * Real.sqrt SB := mul_pos hposA hposB
    rw [abs_le] at habs
    constructor
    · rw [le_div_iff₀ hpos]
      linarith [habs.1]
    · rw [div_le_one hpos]
      exact habs.2

/-- C6: the similarity contract's algebraic identities.  Symmetry for
equal-length vectors; value one on any nonzero vector paired with itself;
value exactly zero, not an error, against the zero vector of the same
dimension, including the zero vector against itself. -/
theorem claim_C6 :
    (∀ a b : Vec, a.length = b.length → cosineSimilarity a b = cosineSimilarity b a) ∧
    (∀ v : Vec, (∃ x ∈ v, x ≠ 0) → cosineSimilarity v v = .ok 1) ∧
    (∀ v : Vec, cosineSimilarity v (zeroVector v.length) = .ok 0) := by
  refine ⟨?_, ?_, ?_⟩
  · intro a b h
    rw [cosineSimilarity_eq_ok h, cosineSimilarity_eq_ok h.symm]
    simp only [cosSimVal]
    have hd : (a.zipWith (fun x y => x * y) b).sum = (b.zipWith (fun x y => x * y) a).sum := by
      rw [List.zipWith_comm_of_comm (fun x y => x * y) mul_comm]
    rw [hd]
    by_cases hz : Real.sqrt ((a.map fun x => x * x).sum) = 0 ∨
        Real.sqrt ((b.map fun x => x * x).sum) = 0
    · rw [if_pos hz, if_pos (Or.symm hz)]
    · rw [if_neg hz, if_neg (fun h' => hz (Or.symm h'))]
      rw [mul_comm]
  · intro v hv
    obtain ⟨x, hxmem, hx⟩ := hv
    rw [cosineSimilarity_eq_ok rfl]
    simp only [cosSimVal]
    have hS : 0 < (v.map fun x => x * x).sum := by
      have hmem : x * x ∈ v.map (fun x => x * x) := List.mem_map_of_mem _ hxmem
      have hle : x * x ≤ (v.map fun x => x * x).sum :=
        List.single_le_sum (by
          intro z hz
          obtain ⟨w, _, rfl⟩ := List.mem_map.mp hz
          exact mul_self_nonneg w) _ hmem
      exact lt_of_lt_of_le (mul_self_pos.mpr hx) hle
    have hroot : Real.sqrt ((v.map fun x => x * x).sum) ≠ 0 := by
      rw [Ne, Real.sqrt_eq_zero']
      exact fun h => absurd hS (not_lt.mpr h)
    rw [List.zipWith_same]
    rw [if_neg (by rintro (h | h) <;> exact hroot h)]
    rw [Real.mul_self_sqrt hS.le, div_self hS.ne']
  · intro v
    have hlen : v.length = (zeroVector v.length).length := by
      simp [zeroVector]
    rw [cosineSimilarity_eq_ok hlen]
    simp only [cosSimVal, zeroVector]
    have hz : ((List.replicate v.length (0 : ℝ)).map fun x => x * x).sum = 0 := by
      rw [List.map_replicate]
      simp
    rw [hz, Real.sqrt_zero]
    rw [if_pos (Or.inr rfl)]

/-- Witness for C6 at concrete vectors: symmetry of a two-dimensional pair,
self-similarity one on a nonzero one-dimensional vector, and zero on the
zero vector. -/
theorem claim_C6_witness :
    cosineSimilarity [(1 : ℝ), 2] [(3 : ℝ), 4] = cosineSimilarity [(3 : ℝ), 4] [(1 : ℝ), 2] ∧
    cosineSimilarity [(1 : ℝ)] [(1 : ℝ)] = .ok 1 ∧
    cosineSimilarity [(5 : ℝ)] (zeroVector 1) = .ok 0 :=
  ⟨claim_C6.1 [(1 : ℝ), 2] [(3 : ℝ), 4] rfl,
   claim_C6.2.1 [(1 : ℝ)] ⟨1, by simp, one_ne_zero⟩,
   claim_C6.2.2 [(5 : ℝ)]⟩

/-- C7: cosineSimilarity fails with the dimension-mismatch error exactly
when the two vectors differ in length; on equal lengths it returns a real
number in the closed interval from minus one to one and does not fail. -/
theorem claim_C7 (a b : Vec) :
    (a.length ≠ b.length → cosineSimilarity a b = .error .dimensionMismatch) ∧
    (a.length = b.length → ∃ r : ℝ, cosineSimilarity a b = .ok r ∧ -1 ≤ r ∧ r ≤ 1) := by
  constructor
  · intro h
    exact cosineSimilarity_eq_error h
  · intro h
    exact ⟨cosSimVal a b, cosineSimilarity_eq_ok h,
      (cosSimVal_bounds a b).1, (cosSimVal_bounds a b).2⟩

/-- Witness for C7: a mismatched pair fails, an equal-length pair yields a
value within bounds. -/
theorem claim_C7_witness :
    cosineSimilarity [(1 : ℝ)] [(1 : ℝ), 2] = .error .dimensionMismatch ∧
    ∃ r : ℝ, cosineSimilarity [(1 : ℝ), 0] [(0 : ℝ), 1] = .ok r ∧ -1 ≤ r ∧ r ≤ 1 :=
  ⟨(claim_C7 [(1 : ℝ)] [(1 : ℝ), 2]).1 (by simp),
   (claim_C7 [(1 : ℝ), 0] [(0 : ℝ), 1]).2 rfl⟩

/-! Sorting facts for findTopK, for C1. -/

instance : IsTotal (Chunk × ℝ) (fun x y => y.2 ≤ x.2) := ⟨fun a b => le_total b.2 a.2⟩

instance : IsTrans (Chunk × ℝ) (fun x y => y.2 ≤ x.2) := ⟨fun _ _ _ h1 h2 => le_trans h2 h1⟩

theorem scoreChunks_ok {q : Vec} {chunks : List Chunk}
    (h : ∀ c ∈ chunks, c.embedding.length = q.length) :
    scoreChunks q chunks = .ok (chunks.map (fun c => (c, cosSimVal q c.embedding))) := by
  induction chunks with
  | nil => rfl
  | cons c cs ih =>
    simp only [scoreChunks] at ih ⊢
    rw [List.mapM_cons, cosineSimilarity_eq_ok (h c (by simp)).symm]
    simp only [map_ok, ok_bind]
    rw [ih (fun x hx => h x (by simp [hx]))]
    rfl

theorem orderedInsert_filter_score (s : ℝ) (a : Chunk × ℝ) :
    ∀ L : List (Chunk × ℝ),
      (List.orderedInsert (fun x y => y.2 ≤ x.2) a L).filter (fun x => decide (x.2 = s)) =
        if a.2 = s then a :: L.filter (fun x => decide (x.2 = s))
        else L.filter (fun x => decide (x.2 = s)) := by
  intro L
  induction L with
  | nil =>
    rw [List.orderedInsert_nil]
    by_cases ha : a.2 = s
    · rw [if_pos ha]
      simp [List.filter_cons, ha]
    · rw [if_neg ha]
      simp [List.filter_cons, ha]
  | cons b L ih =>
    simp only [List.orderedInsert]
    by_cases hr : b.2 ≤ a.2
    · rw [if_pos hr]
      by_cases ha : a.2 = s
      · rw [if_pos ha, List.filter_cons, if_pos (by simp [ha])]
      · rw [if_neg ha, List.filter_cons, if_neg (by simp [ha])]
    · rw [if_neg hr, List.filter_cons, List.filter_cons]
      by_cases hb : b.2 = s
      · have ha : ¬ a.2 = s := fun h' => hr (le_of_eq (hb.trans h'.symm))
        have hbd : decide (b.2 = s) = true := by simp [hb]
        rw [if_neg ha, if_pos hbd, if_pos hbd, ih, if_neg ha]
      · have hbd : ¬ decide (b.2 = s) = true := by simp [hb]
        rw [if_neg hbd, if_neg hbd]
        exact ih

theorem insertionSort_filter_score (s : ℝ) :
    ∀ L : List (Chunk × ℝ),
      (sortByScore L).filter (fun x => decide (x.2 = s)) =
        L.filter (fun x => decide (x.2 = s)) := by
  intro L
  induction L with
  | nil => rfl
  | cons a L ih =>
    simp only [sortByScore, List.insertionSort] at ih ⊢
    rw [orderedInsert_filter_score s a]
    by_cases ha : a.2 = s
    · rw [if_pos ha, ih, List.filter_cons, if_pos (by simp [ha])]
    · rw [if_neg ha, ih, List.filter_cons, if_neg (by simp [ha])]

theorem mem_scored_snd {q : Vec} {chunks : List Chunk} {x : Chunk × ℝ}
    (hx : x ∈ chunks.map (fun c => (c, cosSimVal q c.embedding))) :
    x.2 = cosSimVal q x.1.embedding := by
  obtain ⟨c, _, rfl⟩ := List.mem_map.mp hx
  rfl

/-- C1: on a collection whose embeddings all match the query dimension,
findTopK succeeds and returns the first k entries of a list sorted which is
a permutation of the candidates (none omitted, none duplicated), ordered by
descending cosine similarity to the query, with equal-score ties kept in
their original candidate order (the chunks of any fixed score appear
exactly as they do in the input); the result has length min k
(length of the collection), is empty for k equal to zero, and is the whole
sorted permutation when k is at least the collection size. -/
theorem claim_C1 (q : Vec) (cs : List Chunk) (k : Nat)
    (h : ∀ c ∈ cs, c.embedding.length = q.length) :
    ∃ sorted : List Chunk,
      findTopK q cs k = .ok (sorted.take k) ∧
      (sorted.take k).length = min k cs.length ∧
      sorted.Perm cs ∧
      sorted.Sorted (fun c c' => cosSimVal q c'.embedding ≤ cosSimVal q c.embedding) ∧
      (∀ s : ℝ, filterScore q s sorted = filterScore q s cs) ∧
      (k = 0 → findTopK q cs k = .ok []) ∧
      (cs.length ≤ k → findTopK q cs k = .ok sorted) := by
  set scored := cs.map (fun c => (c, cosSimVal q c.embedding)) with hscored
  have hok : scoreChunks q cs = .ok scored := scoreChunks_ok h
  have hfst : scored.map Prod.fst = cs := by
    rw [hscored, List.map_map]
    show List.map (fun c => c) cs = cs
    simp
  have hperm0 : sortByScore scored |>.Perm scored := by
    simp only [sortByScore]
    exact List.perm_insertionSort (fun x y => y.2 ≤ x.2) scored
  have hcomp : findTopK q cs k = .ok (((sortByScore scored).map Prod.fst).take k) := by
    simp only [findTopK, hok, ok_bind, ← List.map_take]
    rfl
  have hlen : ((sortByScore scored).map Prod.fst).length = cs.length := by
    rw [List.length_map, hperm0.length_eq, hscored, List.length_map]
  refine ⟨(sortByScore scored).map Prod.fst, hcomp, ?_, ?_, ?_, ?_, ?_, ?_⟩
  · rw [List.length_take, hlen]
  · have := hperm0.map Prod.fst
    rwa [hfst] at this
  · have hsorted := List.sorted_insertionSort (fun (x y : Chunk × ℝ) => y.2 ≤ x.2) scored
    refine List.pairwise_map.mpr ?_
    refine List.Pairwise.imp_of_mem ?_ hsorted
    intro a b ha hb hr
    have ha' : a.2 = cosSimVal q a.1.embedding := mem_scored_snd (hperm0.subset ha)
    have hb' : b.2 = cosSimVal q b.1.embedding := mem_scored_snd (hperm0.subset hb)
    rw [← ha', ← hb']
    exact hr
  · intro s
    have hside : ∀ M : List (Chunk × ℝ), (∀ x ∈ M, x.2 = cosSimVal q x.1.embedding) →
        filterScore q s (M.map Prod.fst)
          = (M.filter (fun x => decide (x.2 = s))).map Prod.fst := by
      intro M hM
      simp only [filterScore]
      rw [List.filter_map]
      congr 1
      refine List.filter_congr ?_
      intro x hx
      simp only [Function.comp_apply]
      rw [hM x hx]
    calc filterScore q s ((sortByScore scored).map Prod.fst)
        = ((sortByScore scored).filter (fun x => decide (x.2 = s))).map Prod.fst :=
          hside _ (fun x hx => mem_scored_snd (hperm0.subset hx))
      _ = (scored.filter (fun x => decide (x.2 = s))).map Prod.fst := by
          rw [insertionSort_filter_score s scored]
      _ = filterScore q s (scored.map Prod.fst) :=
          (hside _ (fun x hx => mem_scored_snd hx)).symm
      _ = filterScore q s cs := by rw [hfst]
  · intro hk
    subst hk
    rw [hcomp]
    simp
  · intro hk
    rw [hcomp, List.take_of_length_le (by rw [hlen]; exact hk)]

/-- Witness for C1 at a concrete two-chunk collection and k equal to five. -/
theorem claim_C1_witness :
    ∃ sorted : List Chunk,
      findTopK [(1 : ℝ), 0]
          [{ text := ['a'], embedding := [(0 : ℝ), 1] },
           { text := ['b'], embedding := [(1 : ℝ), 0] }] 5 = .ok (sorted.take 5) ∧
      (sorted.take 5).length = min 5
          ([{ text := ['a'], embedding := [(0 : ℝ), 1] },
            { text := ['b'], embedding := [(1 : ℝ), 0] }] : List Chunk).length ∧
      sorted.Perm [{ text := ['a'], embedding := [(0 : ℝ), 1] },
           { text := ['b'], embedding := [(1 : ℝ), 0] }] ∧
      sorted.Sorted (fun c c' => cosSimVal [(1 : ℝ), 0] c'.embedding ≤
          cosSimVal [(1 : ℝ), 0] c.embedding) ∧
      (∀ s : ℝ, filterScore [(1 : ℝ), 0] s sorted =
          filterScore [(1 : ℝ), 0] s [{ text := ['a'], embedding := [(0 : ℝ), 1] },
            { text := ['b'], embedding := [(1 : ℝ), 0] }]) ∧
      ((5 : Nat) = 0 → findTopK [(1 : ℝ), 0]
          [{ text := ['a'], embedding := [(0 : ℝ), 1] },
           { text := ['b'], embedding := [(1 : ℝ), 0] }] 5 = .ok []) ∧
      (([{ text := ['a'], embedding := [(0 : ℝ), 1] },
          { text := ['b'], embedding := [(1 : ℝ), 0] }] : List Chunk).length ≤ 5 →
        findTopK [(1 : ℝ), 0]
          [{ text := ['a'], embedding := [(0 : ℝ), 1] },
           { text := ['b'], embedding := [(1 : ℝ), 0] }] 5 = .ok sorted) :=
  claim_C1 [(1 : ℝ), 0]
    [{ text := ['a'], embedding := [(0 : ℝ), 1] },
     { text := ['b'], embedding := [(1 : ℝ), 0] }] 5
    (by intro c hc; fin_cases hc <;> rfl)
